import Mathlib

/-!
Verification of the Mancala engine and MCTS agent.

The game engine (`crates/mancala/src/state.rs`) is embedded shallowly:
`State` mirrors the Rust struct field by field (the two `[u8; 6]` pit arrays
become `List Nat` of length 6, tracked by `State.Wf`; stone counts in any
reachable position total 48, far below 256, so `Nat` arithmetic agrees with
`u8`).  The sowing loop, capture, extra-turn and terminal-sweep phases of
`sow_from_pit` are transcribed as `sowLoop`, `captureStep`, `turnStep` and
`sweepStep`.  The MCTS structures (`crates/bot/src/node.rs`,
`crates/bot/src/mcts.rs`) are embedded with `f32` idealized as an arbitrary
linear ordered field `K` and `f32::sqrt` as an abstract function `K → K`.
-/

/-- `PITS_PER_SIDE` from `constants.rs`. -/
def PITS_PER_SIDE : Nat := 6

/-- `STONES_PER_PIT` from `constants.rs`. -/
def STONES_PER_PIT : Nat := 4

/-- `Player` from `player.rs`. -/
inductive Player where
  | A
  | B
deriving DecidableEq

/-- `Player::opponent`. -/
def Player.opponent : Player → Player
  | .A => .B
  | .B => .A

/-- `Outcome` from `outcome.rs`. -/
inductive Outcome where
  | Ongoing
  | Win (p : Player)
  | Draw
deriving DecidableEq

/-- `State` from `state.rs`: `pits: [[u8; 6]; 2]` is split into the two rows
`pitsA = pits[0]`, `pitsB = pits[1]`, and `stores: [u8; 2]` into
`storeA = stores[0]`, `storeB = stores[1]`. -/
structure State where
  pitsA : List Nat
  pitsB : List Nat
  storeA : Nat
  storeB : Nat
  to_move : Player
deriving DecidableEq

/-- The Rust type system guarantees both pit arrays have length 6;
this predicate carries that fact for the list embedding. -/
def State.Wf (s : State) : Prop :=
  s.pitsA.length = PITS_PER_SIDE ∧ s.pitsB.length = PITS_PER_SIDE

instance (s : State) : Decidable s.Wf := by
  unfold State.Wf; infer_instance

/-- `State::new`. -/
def State.new : State :=
  { pitsA := List.replicate PITS_PER_SIDE STONES_PER_PIT
    pitsB := List.replicate PITS_PER_SIDE STONES_PER_PIT
    storeA := 0
    storeB := 0
    to_move := Player.A }

/-- `State::pits(side)`: the row `pits[side.idx()]`. -/
def State.pits (s : State) : Player → List Nat
  | .A => s.pitsA
  | .B => s.pitsB

/-- `State::store(side)`: `stores[side.idx()]`. -/
def State.store (s : State) : Player → Nat
  | .A => s.storeA
  | .B => s.storeB

/-- Writing the row `pits[side.idx()]` (the Rust code mutates it in place). -/
def State.setPits (s : State) : Player → List Nat → State
  | .A, l => { s with pitsA := l }
  | .B, l => { s with pitsB := l }

/-- Writing `stores[side.idx()]`. -/
def State.setStore (s : State) : Player → Nat → State
  | .A, n => { s with storeA := n }
  | .B, n => { s with storeB := n }

/-- `State::is_terminal`: either side's pit row is all zero. -/
def State.is_terminal (s : State) : Prop :=
  (∀ x ∈ s.pitsA, x = 0) ∨ (∀ x ∈ s.pitsB, x = 0)

instance (s : State) : Decidable s.is_terminal := by
  unfold State.is_terminal; infer_instance

/-- `State::legal_moves`. -/
def State.legal_moves (s : State) : List Nat :=
  if s.is_terminal then []
  else (List.range PITS_PER_SIDE).filter
    (fun i => decide (0 < (s.pits s.to_move).getD i 0))

/-- `State::outcome` (the `stores[0].cmp(&stores[1])` match). -/
def State.outcome (s : State) : Outcome :=
  if ¬ s.is_terminal then .Ongoing
  else if s.storeB < s.storeA then .Win .A
  else if s.storeA < s.storeB then .Win .B
  else .Draw

/-- The local `enum Loc` of `sow_from_pit`. -/
inductive Loc where
  | pit (side : Player) (idx : Nat)
  | store (side : Player)
deriving DecidableEq

/-- The local `fn next` of `sow_from_pit`. -/
def Loc.next : Loc → Loc
  | .pit side idx => if idx + 1 < PITS_PER_SIDE then .pit side (idx + 1) else .store side
  | .store side => .pit side.opponent 0

/-- One step of the sowing walk: `loc = next(loc)` followed by the
"skip opponent's store" re-step, exactly as in the loop body. -/
def advance (mover : Player) (loc : Loc) : Loc :=
  let l1 := loc.next
  if l1 = Loc.store mover.opponent then l1.next else l1

/-- Depositing one stone at a slot (`pits[side][idx] += 1` / `stores[side] += 1`). -/
def deposit (s : State) : Loc → State
  | .pit side idx => s.setPits side ((s.pits side).set idx ((s.pits side).getD idx 0 + 1))
  | .store side => s.setStore side (s.store side + 1)

/-- The `while stones > 0` loop of `sow_from_pit`: returns the final state and
the slot of the last deposited stone (`last`; when no stone is sown the Rust
code leaves `last` at the starting slot, as here). -/
def sowLoop (mover : Player) : Nat → Loc → State → State × Loc
  | 0, loc, s => (s, loc)
  | Nat.succ n, loc, s => sowLoop mover n (advance mover loc) (deposit s (advance mover loc))

/-- Picking up the chosen pit's stones (`self.pits[mover_i][pit_index] = 0`). -/
def sowStart (s : State) (pit_index : Nat) : State :=
  s.setPits s.to_move ((s.pits s.to_move).set pit_index 0)

/-- The sowing phase of `sow_from_pit`: the pit is emptied and its previous
count of stones is walked around the ring from the chosen pit. -/
def sowResult (s : State) (pit_index : Nat) : State × Loc :=
  sowLoop s.to_move ((s.pits s.to_move).getD pit_index 0)
    (Loc.pit s.to_move pit_index) (sowStart s pit_index)

/-- The capture block of `sow_from_pit`. -/
def captureStep (mover : Player) (last : Loc) (s : State) : State :=
  match last with
  | Loc.pit side idx =>
    if side = mover ∧ (s.pits mover).getD idx 0 = 1 then
      let opp_idx := PITS_PER_SIDE - 1 - idx
      let captured := (s.pits mover.opponent).getD opp_idx 0
      if 0 < captured then
        let sa := s.setPits mover ((s.pits mover).set idx 0)
        let sb := sa.setPits mover.opponent ((sa.pits mover.opponent).set opp_idx 0)
        sb.setStore mover (sb.store mover + captured + 1)
      else s
    else s
  | Loc.store _ => s

/-- The `matches!(last, Loc::Store { side } if side == mover)` test. -/
def isExtraTurn (mover : Player) : Loc → Bool
  | Loc.store side => side == mover
  | Loc.pit _ _ => false

/-- The extra-turn block of `sow_from_pit`. -/
def turnStep (mover : Player) (last : Loc) (s : State) : State :=
  if isExtraTurn mover last then s else { s with to_move := mover.opponent }

/-- The end-of-game sweep block of `sow_from_pit`: the per-index loop
`stores[i] += pits[i][k]; pits[i][k] = 0` over `k < 6` amounts, on the
length-6 rows, to adding each row's sum to its own store and zeroing the row. -/
def sweepStep (s : State) : State :=
  if (∀ x ∈ s.pitsA, x = 0) ∨ (∀ x ∈ s.pitsB, x = 0) then
    { s with
      storeA := s.storeA + s.pitsA.sum
      storeB := s.storeB + s.pitsB.sum
      pitsA := List.replicate PITS_PER_SIDE 0
      pitsB := List.replicate PITS_PER_SIDE 0 }
  else s

/-- `State::sow_from_pit`: sowing, then capture, then turn flip, then sweep. -/
def State.sow_from_pit (s : State) (pit_index : Nat) : State :=
  sweepStep (turnStep s.to_move (sowResult s pit_index).2
    (captureStep s.to_move (sowResult s pit_index).2 (sowResult s pit_index).1))

/-- `State::child_after_move`. -/
def State.child_after_move (s : State) (pit_index : Nat) : Option State :=
  if s.is_terminal ∨ PITS_PER_SIDE ≤ pit_index then none
  else if (s.pits s.to_move).getD pit_index 0 = 0 then none
  else some (s.sow_from_pit pit_index)

/-- `State::legal_actions`; the Rust code unwraps each successor, which is
justified by `legal_moves_iff_terminal` below. -/
def State.legal_actions (s : State) : List State :=
  s.legal_moves.filterMap s.child_after_move

/-- Total stones on the board: all twelve pits plus both stores. -/
def State.total (s : State) : Nat :=
  s.pitsA.sum + s.pitsB.sum + s.storeA + s.storeB

/-- States reachable from the initial position by legal moves. -/
inductive Reachable : State → Prop where
  | init : Reachable State.new
  | step {s t : State} {i : Nat} : Reachable s → s.child_after_move i = some t → Reachable t

/-- Folding a list of moves through `child_after_move` (used to exhibit
concrete reachable positions). -/
def playMoves (s : State) : List Nat → Option State
  | [] => some s
  | m :: ms =>
    match s.child_after_move m with
    | none => none
    | some t => playMoves t ms

/-- A slot that exists on a standard board: pit indices are below 6. -/
def ValidLoc : Loc → Prop
  | .pit _ idx => idx < PITS_PER_SIDE
  | .store _ => True

/-! ### Spec-side ring model of sowing

The spec describes sowing as a walk around "a logical ring consisting of: the
mover's 6 pits, the mover's store, the opponent's 6 pits, the opponent's
store, back to the mover's pits — except the opponent's store slot is always
skipped".  With the skipped slot removed the ring has 13 positions. -/

/-- Modelled from the spec: position `j` of the 13-slot ring (mover's pits
`0..5`, mover's store at `6`, opponent's pits at `7..12`; the opponent's
store is not on the ring). -/
def ringSlot (mover : Player) (j : Nat) : Loc :=
  if j < PITS_PER_SIDE then Loc.pit mover j
  else if j = PITS_PER_SIDE then Loc.store mover
  else Loc.pit mover.opponent (j - (PITS_PER_SIDE + 1))

/-- Modelled from the spec: the slots that receive the `stones` sown from ring
position `j`, in deposit order — one slot per stone, walking the ring. -/
def ringPath (mover : Player) (j stones : Nat) : List Loc :=
  (List.range stones).map (fun k => ringSlot mover ((j + k + 1) % 13))

/-! ### MCTS embedding (`crates/bot/src/node.rs`, `crates/bot/src/mcts.rs`)

`f32` is idealized as an arbitrary linear ordered field `K`, and `f32::sqrt`
as an abstract function `K → K` passed to the operations that use it. -/

/-- `Node` from `node.rs`. -/
inductive Node (K : Type) where
  | mk (state : State) (prior : K) (visits : Nat) (value_sum : K)
      (children : List (Node K)) (unexpanded : List (Nat × K)) (to_move : Player)

/-- Field `state`. -/
def Node.state {K : Type} : Node K → State
  | .mk st _ _ _ _ _ _ => st

/-- Field `prior`. -/
def Node.prior {K : Type} : Node K → K
  | .mk _ p _ _ _ _ _ => p

/-- Field `visits`. -/
def Node.visits {K : Type} : Node K → Nat
  | .mk _ _ v _ _ _ _ => v

/-- Field `value_sum`. -/
def Node.valueSum {K : Type} : Node K → K
  | .mk _ _ _ v _ _ _ => v

/-- Field `children`. -/
def Node.children {K : Type} : Node K → List (Node K)
  | .mk _ _ _ _ c _ _ => c

/-- Field `to_move`. -/
def Node.toMove {K : Type} : Node K → Player
  | .mk _ _ _ _ _ _ m => m

/-- `Node::is_terminal` (delegates to the state). -/
def Node.is_terminal {K : Type} (n : Node K) : Prop :=
  n.state.is_terminal

instance {K : Type} (n : Node K) : Decidable n.is_terminal := by
  unfold Node.is_terminal; infer_instance

/-- `Node::value_mean`. -/
def Node.value_mean {K : Type} [LinearOrderedField K] (n : Node K) : K :=
  if n.visits = 0 then 0 else n.valueSum / (n.visits : K)

/-- `Node::ucb`: the PUCT score of `child` as seen from parent `p`;
`sqrtK` stands for `f32::sqrt`. -/
def Node.ucb {K : Type} [LinearOrderedField K] (sqrtK : K → K)
    (p child : Node K) (c_puct : K) : K :=
  let q_parent := if p.toMove = child.toMove then child.value_mean else -child.value_mean
  let n : K := (child.visits : K)
  let n_parent : K := ((max p.visits 1 : Nat) : K)
  q_parent + c_puct * child.prior * (sqrtK n_parent / (1 + n))

/-- The scanning loop of `Node::best_child` over an already-computed list of
scores: running best index and best score, where `none` models the
`f32::NEG_INFINITY` sentinel (which every real score beats). -/
def bestScan {K : Type} [LinearOrderedField K] :
    List K → Nat → Nat → Option K → Nat
  | [], _, best, _ => best
  | sc :: rest, i, best, bestScore =>
    match bestScore with
    | none => bestScan rest (i + 1) i (some sc)
    | some b => if b < sc then bestScan rest (i + 1) i (some sc)
                else bestScan rest (i + 1) best (some b)

/-- `Node::best_child`. -/
def Node.best_child {K : Type} [LinearOrderedField K] (sqrtK : K → K)
    (p : Node K) (c_puct : K) : Nat :=
  bestScan (p.children.map (fun ch => Node.ucb sqrtK p ch c_puct)) 0 0 none

/-- Modelled from the spec: the PUCT selection score
`Q + c_puct * P * sqrt(N_parent) / (1 + N_child)`, with `Q` the child's mean
value negated when the child's side to move differs from the parent's,
`P` the child's prior, `N_parent` the parent's visit count floored at 1 and
`N_child` the child's visit count. -/
def puctScoreSpec {K : Type} [LinearOrderedField K] (sqrtK : K → K)
    (p child : Node K) (c_puct : K) : K :=
  (if child.toMove = p.toMove then child.value_mean else -child.value_mean)
  + c_puct * child.prior * sqrtK ((max p.visits 1 : Nat) : K) / (1 + (child.visits : K))

/-- `evaluate_leaf` from `mcts.rs`; `eval` stands for
`Evaluator::policy_value`. -/
def evaluate_leaf {K : Type} [LinearOrderedField K]
    (eval : State → List (Nat × K) × K) (n : Node K) : K :=
  if n.is_terminal then
    match n.state.outcome with
    | .Win p => if p = n.toMove then -1 else 1
    | .Draw => 0
    | .Ongoing => 0
  else (eval n.state).2

/-! ### Concrete positions used in witnesses and counterexamples -/

/-- Move prefix from the initial position leading to `c7State`. -/
def c7Moves : List Nat := [5, 1, 2, 0, 3, 0, 4, 0]

/-- A reachable position (B to move) whose move 5 empties B's side, so the
end-of-game sweep pays A's remaining pit stones into A's store. -/
def c7State : State := State.mk [0, 10, 7, 6, 6, 0] [0, 0, 0, 0, 0, 8] 7 4 .B

/-- A position (A to move) where move 0 triggers a capture that empties B's
side, so the terminal sweep adds A's remaining pit stones on top of the
captured ones. -/
def c3State : State := State.mk [1, 0, 0, 0, 0, 5] [0, 0, 0, 0, 3, 0] 0 0 .A

/-- A position (A to move) whose move 0 triggers a capture and leaves both
sides non-empty, so no sweep interferes (capture-rule witness). -/
def c3WState : State := State.mk [1, 0, 1, 0, 0, 0] [0, 0, 0, 0, 3, 1] 0 0 .A

/-- A terminal position won by A (used for the leaf-evaluation witness). -/
def c8State : State := State.mk [0, 0, 0, 0, 0, 0] [0, 0, 0, 0, 0, 0] 5 3 .A

/-- A terminal leaf node over `ℚ` for `c8State`, with A to move. -/
def c8Node : Node ℚ := Node.mk c8State 1 0 0 [] [] .A

/-- A trivial evaluator over `ℚ`. -/
def c8Eval : State → List (Nat × ℚ) × ℚ := fun _ => ([], 0)

/-- A parent node over `ℚ` with two visited children (used for the PUCT
witness): child 0 has mean value 1, child 1 has mean value 0. -/
def c9Parent : Node ℚ :=
  Node.mk State.new 1 1 0
    [Node.mk State.new 0 1 1 [] [] .A, Node.mk State.new 0 1 0 [] [] .A] [] .A

-- Sanity checks of the embedding against the engine's own unit tests
-- (`capture_rule_works`, `no_capture_when_opposite_empty`,
-- `no_capture_when_landing_on_non_empty_own_pit`, `skip_opponents_store_on_sow`,
-- `wraparound_skips_opponents_store_and_preserves_total`,
-- `terminal_sweep_when_side_becomes_empty`).
example : (State.mk [1, 0, 0, 0, 0, 0] [0, 0, 0, 0, 3, 0] 0 0 .A).child_after_move 0 =
    some (State.mk [0, 0, 0, 0, 0, 0] [0, 0, 0, 0, 0, 0] 4 0 .B) := by decide
example : (State.mk [1, 0, 0, 0, 0, 0] [1, 0, 0, 0, 0, 0] 0 0 .A).child_after_move 0 =
    some (State.mk [0, 1, 0, 0, 0, 0] [1, 0, 0, 0, 0, 0] 0 0 .B) := by decide
example : (State.mk [2, 1, 0, 0, 0, 0] [0, 0, 0, 0, 5, 0] 0 0 .A).child_after_move 0 =
    some (State.mk [0, 2, 1, 0, 0, 0] [0, 0, 0, 0, 5, 0] 0 0 .B) := by decide
example : (State.mk [14, 1, 1, 1, 1, 1] [1, 1, 1, 1, 1, 1] 0 0 .A).child_after_move 0 =
    some (State.mk [1, 3, 2, 2, 2, 2] [2, 2, 2, 2, 2, 2] 1 0 .B) := by decide
example : (State.mk [1, 1, 1, 1, 1, 20] [1, 1, 1, 1, 1, 1] 0 0 .A).child_after_move 5 =
    some (State.mk [2, 2, 2, 2, 2, 1] [3, 3, 3, 3, 3, 3] 2 0 .B) := by decide
example : (State.mk [0, 0, 0, 0, 0, 1] [0, 0, 0, 0, 0, 1] 0 0 .A).child_after_move 5 =
    some (State.mk [0, 0, 0, 0, 0, 0] [0, 0, 0, 0, 0, 0] 1 1 .A) := by decide
example : (State.mk [5, 0, 0, 5, 2, 1] [1, 1, 5, 0, 5, 5] 4 0 .B).child_after_move 0 =
    some (State.mk [5, 0, 0, 5, 2, 1] [0, 2, 5, 0, 5, 5] 4 0 .A) := by decide
example : (State.mk [4, 2, 6, 6, 0, 6] [6, 1, 5, 3, 2, 2] 1 1 .B).child_after_move 0 =
    some (State.mk [4, 2, 6, 6, 0, 6] [0, 2, 6, 4, 3, 3] 1 2 .B) := by decide
example : (State.mk [6, 1, 6, 0, 3, 2] [3, 5, 6, 2, 1, 2] 2 1 .B).child_after_move 5 =
    some (State.mk [7, 1, 6, 0, 3, 2] [3, 5, 6, 2, 1, 0] 2 2 .A) := by decide
example : (State.mk [2, 6, 6, 6, 0, 1] [6, 0, 6, 2, 3, 2] 0 1 .B).child_after_move 1 =
    none := by decide
example : State.new.child_after_move 2 = some
    (State.mk [4, 4, 0, 5, 5, 5] [4, 4, 4, 4, 4, 4] 1 0 .A) := by decide

/-! ### List helper lemmas -/

theorem getD_oob (l : List Nat) : ∀ i, l.length ≤ i → l.getD i 0 = 0 := by
  induction l with
  | nil => intro i _; rfl
  | cons x xs ih =>
    intro i hi
    cases i with
    | zero => simp at hi
    | succ n => simpa using ih n (by simpa using hi)

theorem lt_length_of_getD_pos (l : List Nat) (i : Nat) (h : 0 < l.getD i 0) :
    i < l.length := by
  by_contra hc
  rw [getD_oob l i (by omega)] at h
  omega

theorem set_oob (l : List Nat) : ∀ i a, l.length ≤ i → l.set i a = l := by
  induction l with
  | nil => intro i a _; rfl
  | cons x xs ih =>
    intro i a hi
    cases i with
    | zero => simp at hi
    | succ n => simpa using ih n a (by simpa using hi)

theorem getD_set_self (l : List Nat) : ∀ i a, i < l.length → (l.set i a).getD i 0 = a := by
  induction l with
  | nil => intro i a h; simp at h
  | cons x xs ih =>
    intro i a h
    cases i with
    | zero => rfl
    | succ n => simpa using ih n a (by simpa using h)

theorem getD_set_ne (l : List Nat) : ∀ i j a, j ≠ i → (l.set i a).getD j 0 = l.getD j 0 := by
  induction l with
  | nil => intro i j a _; rfl
  | cons x xs ih =>
    intro i j a hne
    cases i with
    | zero =>
      cases j with
      | zero => exact absurd rfl hne
      | succ m => rfl
    | succ n =>
      cases j with
      | zero => rfl
      | succ m => simpa using ih n m a (by omega)

theorem sum_set_add (l : List Nat) : ∀ i a, i < l.length →
    (l.set i a).sum + l.getD i 0 = l.sum + a := by
  induction l with
  | nil => intro i a h; simp at h
  | cons x xs ih =>
    intro i a h
    cases i with
    | zero => simp [List.set]; omega
    | succ n =>
      have := ih n a (by simpa using h)
      simp only [List.set, List.sum_cons]
      have hg : (x :: xs).getD (n + 1) 0 = xs.getD n 0 := rfl
      rw [hg]
      omega

theorem getD_replicate_zero : ∀ n j, (List.replicate n (0 : Nat)).getD j 0 = 0 := by
  intro n
  induction n with
  | zero => intro j; rfl
  | succ m ih =>
    intro j
    cases j with
    | zero => rfl
    | succ k => exact ih k

theorem all_zero_iff_getD (l : List Nat) : (∀ x ∈ l, x = 0) ↔ ∀ j, l.getD j 0 = 0 := by
  induction l with
  | nil => simp
  | cons x xs ih =>
    constructor
    · intro h j
      cases j with
      | zero => exact h x (by simp)
      | succ n =>
        have : ∀ x ∈ xs, x = 0 := fun y hy => h y (by simp [hy])
        simpa using (ih.mp this) n
    · intro h y hy
      rcases List.mem_cons.mp hy with rfl | hmem
      · exact h 0
      · exact (ih.mpr (fun j => by simpa using h (j + 1))) y hmem

theorem filterMap_length_of_isSome {α β : Type} (f : α → Option β) :
    ∀ l : List α, (∀ a ∈ l, (f a).isSome) → (l.filterMap f).length = l.length := by
  intro l
  induction l with
  | nil => intro _; rfl
  | cons x xs ih =>
    intro h
    have hx : (f x).isSome := h x (by simp)
    rcases Option.isSome_iff_exists.mp hx with ⟨b, hb⟩
    rw [List.filterMap_cons, hb]
    simp only [List.length_cons]
    rw [ih (fun a ha => h a (by simp [ha]))]

/-! ### Player and accessor lemmas -/

theorem Player.opponent_ne (p : Player) : p.opponent ≠ p := by
  cases p <;> decide

theorem pits_setPits_self (s : State) (q : Player) (l : List Nat) :
    (s.setPits q l).pits q = l := by
  cases q <;> rfl

theorem pits_setPits_ne (s : State) (q r : Player) (l : List Nat) (h : r ≠ q) :
    (s.setPits q l).pits r = s.pits r := by
  cases q <;> cases r <;> first | rfl | exact absurd rfl h

theorem store_setPits (s : State) (q r : Player) (l : List Nat) :
    (s.setPits q l).store r = s.store r := by
  cases q <;> cases r <;> rfl

theorem to_move_setPits (s : State) (q : Player) (l : List Nat) :
    (s.setPits q l).to_move = s.to_move := by
  cases q <;> rfl

theorem pits_setStore (s : State) (q r : Player) (n : Nat) :
    (s.setStore q n).pits r = s.pits r := by
  cases q <;> cases r <;> rfl

theorem store_setStore_self (s : State) (q : Player) (n : Nat) :
    (s.setStore q n).store q = n := by
  cases q <;> rfl

theorem store_setStore_ne (s : State) (q r : Player) (n : Nat) (h : r ≠ q) :
    (s.setStore q n).store r = s.store r := by
  cases q <;> cases r <;> first | rfl | exact absurd rfl h

theorem to_move_setStore (s : State) (q : Player) (n : Nat) :
    (s.setStore q n).to_move = s.to_move := by
  cases q <;> rfl

theorem total_eq_pits_store (s : State) :
    s.total = (s.pits .A).sum + (s.pits .B).sum + s.store .A + s.store .B := rfl

theorem wf_iff_pits_length (s : State) :
    s.Wf ↔ (s.pits .A).length = PITS_PER_SIDE ∧ (s.pits .B).length = PITS_PER_SIDE :=
  Iff.rfl

theorem is_terminal_iff_pits (s : State) :
    s.is_terminal ↔ (∀ x ∈ s.pits .A, x = 0) ∨ (∀ x ∈ s.pits .B, x = 0) :=
  Iff.rfl

/-! ### Ring lemmas: the code's walk matches the 13-slot spec ring -/

theorem advance_ringSlot (m : Player) (j : Nat) (hj : j < 13) :
    advance m (ringSlot m j) = ringSlot m ((j + 1) % 13) := by
  cases m <;> interval_cases j <;> decide

theorem ringSlot_ne_opp_store (m : Player) (j : Nat) :
    ringSlot m j ≠ Loc.store m.opponent := by
  unfold ringSlot
  split_ifs with h1 h2
  · intro h; cases h
  · intro h
    injection h with h
    exact Player.opponent_ne m h.symm
  · intro h; cases h

theorem ringSlot_valid (m : Player) (j : Nat) (hj : j < 13) :
    ValidLoc (ringSlot m j) := by
  unfold ringSlot ValidLoc PITS_PER_SIDE
  split_ifs with h1 h2
  · simpa [PITS_PER_SIDE] using h1
  · trivial
  · simp only [PITS_PER_SIDE] at h1
    omega

theorem mem_ringPath (m : Player) (j stones : Nat) (l : Loc)
    (h : l ∈ ringPath m j stones) : ∃ j2, j2 < 13 ∧ l = ringSlot m j2 := by
  unfold ringPath at h
  rcases List.mem_map.mp h with ⟨k, _, rfl⟩
  exact ⟨(j + k + 1) % 13, Nat.mod_lt _ (by omega), rfl⟩

theorem ringPath_length (m : Player) (j stones : Nat) :
    (ringPath m j stones).length = stones := by
  unfold ringPath
  simp

theorem opp_store_not_mem_ringPath (m : Player) (j stones : Nat) :
    Loc.store m.opponent ∉ ringPath m j stones := by
  intro hmem
  rcases mem_ringPath m j stones _ hmem with ⟨j2, _, hne⟩
  exact ringSlot_ne_opp_store m j2 hne.symm

theorem ringPath_succ (m : Player) (j n : Nat) :
    ringPath m j (n + 1) =
      ringSlot m ((j + 1) % 13) :: ringPath m ((j + 1) % 13) n := by
  unfold ringPath
  rw [List.range_succ_eq_map]
  simp only [List.map_cons, List.map_map, Nat.add_zero]
  congr 1
  apply List.map_congr_left
  intro k _
  simp only [Function.comp]
  have h1 : (j + 1) % 13 + k + 1 = (j + 1) % 13 + (k + 1) := by omega
  rw [h1, Nat.mod_add_mod]
  have h2 : j + 1 + (k + 1) = j + Nat.succ k + 1 := by omega
  rw [h2]

theorem sowLoop_ringSlot (m : Player) : ∀ (stones j : Nat) (s : State), j < 13 →
    sowLoop m stones (ringSlot m j) s =
      (List.foldl deposit s (ringPath m j stones), ringSlot m ((j + stones) % 13)) := by
  intro stones
  induction stones with
  | zero =>
    intro j s hj
    unfold sowLoop ringPath
    simp [Nat.mod_eq_of_lt hj]
  | succ n ih =>
    intro j s hj
    have hstep := advance_ringSlot m j hj
    have hj2 : (j + 1) % 13 < 13 := Nat.mod_lt _ (by omega)
    calc sowLoop m (n + 1) (ringSlot m j) s
        = sowLoop m n (ringSlot m ((j + 1) % 13))
            (deposit s (ringSlot m ((j + 1) % 13))) := by
          rw [show sowLoop m (n + 1) (ringSlot m j) s =
              sowLoop m n (advance m (ringSlot m j))
                (deposit s (advance m (ringSlot m j))) from rfl, hstep]
      _ = (List.foldl deposit (deposit s (ringSlot m ((j + 1) % 13)))
            (ringPath m ((j + 1) % 13) n),
           ringSlot m (((j + 1) % 13 + n) % 13)) := ih ((j + 1) % 13) _ hj2
      _ = (List.foldl deposit s (ringPath m j (n + 1)),
           ringSlot m ((j + (n + 1)) % 13)) := by
          rw [ringPath_succ m j n]
          simp only [List.foldl_cons]
          have : ((j + 1) % 13 + n) % 13 = (j + (n + 1)) % 13 := by
            rw [Nat.mod_add_mod]
            have : j + 1 + n = j + (n + 1) := by omega
            rw [this]
          rw [this]

/-! ### Deposit and fold lemmas -/

theorem deposit_to_move (s : State) (l : Loc) : (deposit s l).to_move = s.to_move := by
  cases l with
  | pit side idx => exact to_move_setPits s side _
  | store side => exact to_move_setStore s side _

theorem deposit_pits_length (s : State) (l : Loc) (q : Player) :
    ((deposit s l).pits q).length = (s.pits q).length := by
  cases l with
  | pit side idx =>
    by_cases h : q = side
    · subst h
      rw [show deposit s (Loc.pit q idx) = s.setPits q ((s.pits q).set idx ((s.pits q).getD idx 0 + 1)) from rfl]
      rw [pits_setPits_self]
      exact List.length_set _ _ _
    · rw [show deposit s (Loc.pit side idx) = s.setPits side ((s.pits side).set idx ((s.pits side).getD idx 0 + 1)) from rfl]
      rw [pits_setPits_ne s side q _ h]
  | store side =>
    rw [show deposit s (Loc.store side) = s.setStore side (s.store side + 1) from rfl]
    rw [pits_setStore]

theorem deposit_store_ne (s : State) (l : Loc) (q : Player) (h : l ≠ Loc.store q) :
    (deposit s l).store q = s.store q := by
  cases l with
  | pit side idx => exact store_setPits s side q _
  | store side =>
    have hq : q ≠ side := by
      intro he
      exact h (by rw [he])
    rw [show deposit s (Loc.store side) = s.setStore side (s.store side + 1) from rfl]
    exact store_setStore_ne s side q _ hq

theorem deposit_wf (s : State) (l : Loc) (h : s.Wf) : (deposit s l).Wf := by
  rw [wf_iff_pits_length] at h ⊢
  rw [deposit_pits_length, deposit_pits_length]
  exact h

theorem deposit_total (s : State) (l : Loc) (hwf : s.Wf) (hv : ValidLoc l) :
    (deposit s l).total = s.total + 1 := by
  cases l with
  | pit side idx =>
    have hlen : idx < (s.pits side).length := by
      rcases hwf with ⟨ha, hb⟩
      cases side
      · rw [show s.pits .A = s.pitsA from rfl, ha]; exact hv
      · rw [show s.pits .B = s.pitsB from rfl, hb]; exact hv
    have hsum := sum_set_add (s.pits side) idx ((s.pits side).getD idx 0 + 1) hlen
    cases side <;>
      · simp only [deposit, State.setPits, State.total, State.pits] at *
        omega
  | store side =>
    cases side <;>
      · simp only [deposit, State.setStore, State.total, State.store]
        omega

theorem deposit_getD_le (s : State) (l : Loc) (q : Player) (j : Nat) :
    (s.pits q).getD j 0 ≤ ((deposit s l).pits q).getD j 0 := by
  cases l with
  | pit side idx =>
    by_cases hq : q = side
    · subst hq
      rw [show deposit s (Loc.pit q idx) = s.setPits q ((s.pits q).set idx ((s.pits q).getD idx 0 + 1)) from rfl,
        pits_setPits_self]
      by_cases hj : j = idx
      · subst hj
        by_cases hlen : j < (s.pits q).length
        · rw [getD_set_self _ _ _ hlen]; omega
        · rw [set_oob _ _ _ (by omega)]
      · rw [getD_set_ne _ _ _ _ hj]
    · rw [show deposit s (Loc.pit side idx) = s.setPits side ((s.pits side).set idx ((s.pits side).getD idx 0 + 1)) from rfl,
        pits_setPits_ne s side q _ hq]
  | store side =>
    rw [show deposit s (Loc.store side) = s.setStore side (s.store side + 1) from rfl,
      pits_setStore]

theorem foldl_deposit_to_move : ∀ (path : List Loc) (s : State),
    (List.foldl deposit s path).to_move = s.to_move := by
  intro path
  induction path with
  | nil => intro s; rfl
  | cons l rest ih =>
    intro s
    rw [List.foldl_cons, ih, deposit_to_move]

theorem foldl_deposit_store : ∀ (path : List Loc) (s : State) (q : Player),
    Loc.store q ∉ path → (List.foldl deposit s path).store q = s.store q := by
  intro path
  induction path with
  | nil => intro s q _; rfl
  | cons l rest ih =>
    intro s q hmem
    rw [List.foldl_cons, ih _ _ (fun hr => hmem (by simp [hr])),
      deposit_store_ne s l q (fun he => hmem (by simp [he]))]

theorem foldl_deposit_wf : ∀ (path : List Loc) (s : State),
    s.Wf → (List.foldl deposit s path).Wf := by
  intro path
  induction path with
  | nil => intro s h; exact h
  | cons l rest ih =>
    intro s h
    rw [List.foldl_cons]
    exact ih _ (deposit_wf s l h)

theorem foldl_deposit_total : ∀ (path : List Loc) (s : State),
    s.Wf → (∀ l ∈ path, ValidLoc l) →
    (List.foldl deposit s path).total = s.total + path.length := by
  intro path
  induction path with
  | nil => intro s _ _; rfl
  | cons l rest ih =>
    intro s hwf hv
    rw [List.foldl_cons,
      ih _ (deposit_wf s l hwf) (fun x hx => hv x (by simp [hx])),
      deposit_total s l hwf (hv l (by simp))]
    simp only [List.length_cons]
    omega

theorem foldl_deposit_getD_le : ∀ (path : List Loc) (s : State) (q : Player) (j : Nat),
    (s.pits q).getD j 0 ≤ ((List.foldl deposit s path).pits q).getD j 0 := by
  intro path
  induction path with
  | nil => intro s q j; exact Nat.le_refl _
  | cons l rest ih =>
    intro s q j
    rw [List.foldl_cons]
    exact Nat.le_trans (deposit_getD_le s l q j) (ih _ q j)

theorem foldl_deposit_length : ∀ (path : List Loc) (s : State) (q : Player),
    ((List.foldl deposit s path).pits q).length = (s.pits q).length := by
  intro path
  induction path with
  | nil => intro s q; rfl
  | cons l rest ih =>
    intro s q
    rw [List.foldl_cons, ih, deposit_pits_length]

/-! ### Sowing-phase lemmas -/

theorem ringSlot_of_lt (m : Player) (i : Nat) (h : i < PITS_PER_SIDE) :
    ringSlot m i = Loc.pit m i := by
  unfold ringSlot
  rw [if_pos h]

theorem sowResult_eq (s : State) (i : Nat) (hi : i < PITS_PER_SIDE) :
    sowResult s i =
      (List.foldl deposit (sowStart s i)
        (ringPath s.to_move i ((s.pits s.to_move).getD i 0)),
       ringSlot s.to_move ((i + (s.pits s.to_move).getD i 0) % 13)) := by
  unfold sowResult
  rw [← ringSlot_of_lt s.to_move i hi]
  exact sowLoop_ringSlot s.to_move _ i _ (by
    unfold PITS_PER_SIDE at hi
    omega)

theorem sowStart_to_move (s : State) (i : Nat) : (sowStart s i).to_move = s.to_move :=
  to_move_setPits s s.to_move _

theorem sowStart_store (s : State) (i : Nat) (q : Player) :
    (sowStart s i).store q = s.store q :=
  store_setPits s s.to_move q _

theorem sowStart_pits_ne (s : State) (i : Nat) (q : Player) (h : q ≠ s.to_move) :
    (sowStart s i).pits q = s.pits q :=
  pits_setPits_ne s s.to_move q _ h

theorem sowStart_pits_self (s : State) (i : Nat) :
    (sowStart s i).pits s.to_move = (s.pits s.to_move).set i 0 :=
  pits_setPits_self s s.to_move _

theorem sowStart_wf (s : State) (i : Nat) (h : s.Wf) : (sowStart s i).Wf := by
  obtain ⟨pa, pb, sa, sb, m⟩ := s
  rcases h with ⟨ha, hb⟩
  cases m <;>
    exact ⟨by simpa [sowStart, State.setPits, State.pits, State.Wf] using ha,
           by simpa [sowStart, State.setPits, State.pits, State.Wf] using hb⟩

theorem sowStart_total (s : State) (i : Nat)
    (h : 0 < (s.pits s.to_move).getD i 0) :
    (sowStart s i).total + (s.pits s.to_move).getD i 0 = s.total := by
  have hlen : i < (s.pits s.to_move).length := lt_length_of_getD_pos _ i h
  have hsum := sum_set_add (s.pits s.to_move) i 0 hlen
  obtain ⟨pa, pb, sa, sb, m⟩ := s
  cases m <;>
    · simp only [sowStart, State.setPits, State.pits, State.total] at *
      omega

/-! ### Capture, turn and sweep lemmas -/

theorem captureStep_to_move (m : Player) (last : Loc) (s : State) :
    (captureStep m last s).to_move = s.to_move := by
  cases last with
  | store side => rfl
  | pit side idx =>
    simp only [captureStep]
    split_ifs with h1 h2
    · rw [to_move_setStore, to_move_setPits, to_move_setPits]
    · rfl
    · rfl

theorem captureStep_store_ne (m q : Player) (last : Loc) (s : State) (h : q ≠ m) :
    (captureStep m last s).store q = s.store q := by
  cases last with
  | store side => rfl
  | pit side idx =>
    simp only [captureStep]
    split_ifs with h1 h2
    · rw [store_setStore_ne _ _ _ _ h, store_setPits, store_setPits]
    · rfl
    · rfl

theorem setPits_pits_length (s : State) (q r : Player) (l : List Nat)
    (h : l.length = (s.pits q).length) :
    ((s.setPits q l).pits r).length = (s.pits r).length := by
  by_cases hr : r = q
  · subst hr
    rw [pits_setPits_self]
    exact h
  · rw [pits_setPits_ne s q r l hr]

theorem captureStep_length (m : Player) (last : Loc) (s : State) (q : Player) :
    ((captureStep m last s).pits q).length = (s.pits q).length := by
  cases last with
  | store side => rfl
  | pit side idx =>
    simp only [captureStep]
    split_ifs with h1 h2
    · rw [pits_setStore]
      rw [setPits_pits_length _ _ _ _ (List.length_set _ _ _),
        setPits_pits_length _ _ _ _ (List.length_set _ _ _)]
    · rfl
    · rfl

theorem captureStep_wf (m : Player) (last : Loc) (s : State) (h : s.Wf) :
    (captureStep m last s).Wf := by
  rw [wf_iff_pits_length] at h ⊢
  rw [captureStep_length, captureStep_length]
  exact h

theorem captureStep_total (m : Player) (last : Loc) (s : State) :
    (captureStep m last s).total = s.total := by
  cases last with
  | store side => rfl
  | pit side idx =>
    simp only [captureStep]
    split_ifs with h1 h2
    · obtain ⟨hside, hone⟩ := h1
      have hidx : idx < (s.pits m).length :=
        lt_length_of_getD_pos _ idx (by rw [hone]; omega)
      have hs1 := sum_set_add (s.pits m) idx 0 hidx
      have hoppidx : PITS_PER_SIDE - 1 - idx < (s.pits m.opponent).length :=
        lt_length_of_getD_pos _ _ h2
      have hs2 := sum_set_add (s.pits m.opponent) (PITS_PER_SIDE - 1 - idx) 0 hoppidx
      obtain ⟨pa, pb, qa, qb, mv⟩ := s
      cases m <;>
        · simp only [State.pits, State.setPits, State.setStore, State.store,
            State.total, Player.opponent] at hs1 hs2 hone h2 ⊢
          omega
    · rfl
    · rfl

theorem isExtraTurn_iff (m : Player) (l : Loc) :
    isExtraTurn m l = true ↔ l = Loc.store m := by
  cases l with
  | pit side idx => simp [isExtraTurn]
  | store side => simp [isExtraTurn]

theorem turnStep_to_move (m : Player) (last : Loc) (s : State) :
    (turnStep m last s).to_move =
      if isExtraTurn m last then s.to_move else m.opponent := by
  unfold turnStep
  split_ifs <;> rfl

theorem turnStep_pits (m : Player) (last : Loc) (s : State) (q : Player) :
    (turnStep m last s).pits q = s.pits q := by
  unfold turnStep
  split_ifs <;> cases q <;> rfl

theorem turnStep_store (m : Player) (last : Loc) (s : State) (q : Player) :
    (turnStep m last s).store q = s.store q := by
  unfold turnStep
  split_ifs <;> cases q <;> rfl

theorem turnStep_total (m : Player) (last : Loc) (s : State) :
    (turnStep m last s).total = s.total := by
  unfold turnStep
  split_ifs <;> rfl

theorem turnStep_wf (m : Player) (last : Loc) (s : State) (h : s.Wf) :
    (turnStep m last s).Wf := by
  unfold turnStep
  split_ifs
  · exact h
  · exact h

theorem sum_replicate_zero : ∀ n, (List.replicate n (0 : Nat)).sum = 0 := by
  intro n
  induction n with
  | zero => rfl
  | succ k ih => simp [ih]

theorem sweepStep_of_terminal (s : State) (h : s.is_terminal) :
    sweepStep s =
      { s with
        storeA := s.storeA + s.pitsA.sum
        storeB := s.storeB + s.pitsB.sum
        pitsA := List.replicate PITS_PER_SIDE 0
        pitsB := List.replicate PITS_PER_SIDE 0 } := by
  have hc : (∀ x ∈ s.pitsA, x = 0) ∨ (∀ x ∈ s.pitsB, x = 0) := h
  simp only [sweepStep, if_pos hc]

theorem sweepStep_of_not_terminal (s : State) (h : ¬ s.is_terminal) :
    sweepStep s = s := by
  have hc : ¬ ((∀ x ∈ s.pitsA, x = 0) ∨ (∀ x ∈ s.pitsB, x = 0)) := h
  simp only [sweepStep, if_neg hc]

theorem sweepStep_pits_zero (s : State) (h : s.is_terminal) :
    (∀ x ∈ (sweepStep s).pitsA, x = 0) ∧ (∀ x ∈ (sweepStep s).pitsB, x = 0) := by
  rw [sweepStep_of_terminal s h]
  exact ⟨fun x hx => List.eq_of_mem_replicate hx,
         fun x hx => List.eq_of_mem_replicate hx⟩

theorem is_terminal_sweepStep (s : State) :
    (sweepStep s).is_terminal ↔ s.is_terminal := by
  by_cases h : s.is_terminal
  · constructor
    · intro _; exact h
    · intro _
      exact Or.inl ((sweepStep_pits_zero s h).1)
  · rw [sweepStep_of_not_terminal s h]

theorem sweepStep_to_move (s : State) : (sweepStep s).to_move = s.to_move := by
  by_cases h : s.is_terminal
  · rw [sweepStep_of_terminal s h]
  · rw [sweepStep_of_not_terminal s h]

theorem sweepStep_total (s : State) : (sweepStep s).total = s.total := by
  by_cases h : s.is_terminal
  · rw [sweepStep_of_terminal s h]
    unfold State.total
    simp only [sum_replicate_zero]
    omega
  · rw [sweepStep_of_not_terminal s h]

theorem sweepStep_wf (s : State) (h : s.Wf) : (sweepStep s).Wf := by
  by_cases ht : s.is_terminal
  · rw [sweepStep_of_terminal s ht]
    exact ⟨List.length_replicate _ _, List.length_replicate _ _⟩
  · rw [sweepStep_of_not_terminal s ht]
    exact h

/-! ### Child-level lemmas -/

theorem child_eq_some_iff (s t : State) (i : Nat) :
    s.child_after_move i = some t ↔
      ¬ s.is_terminal ∧ i < PITS_PER_SIDE ∧ 0 < (s.pits s.to_move).getD i 0 ∧
        t = s.sow_from_pit i := by
  unfold State.child_after_move
  split_ifs with h1 h2
  · constructor
    · intro h; exact absurd h (by simp)
    · rintro ⟨hnt, hlt, _, _⟩
      rcases h1 with h1 | h1
      · exact absurd h1 hnt
      · omega
  · push_neg at h1
    constructor
    · intro h; exact absurd h (by simp)
    · rintro ⟨_, _, hpos, _⟩
      omega
  · push_neg at h1
    constructor
    · intro h
      exact ⟨h1.1, by omega, by omega, (Option.some_inj.mp h).symm⟩
    · rintro ⟨_, _, _, rfl⟩
      rfl

theorem ringPath_all_valid (m : Player) (j stones : Nat) :
    ∀ l ∈ ringPath m j stones, ValidLoc l := by
  intro l hl
  rcases mem_ringPath m j stones l hl with ⟨j2, hj2, rfl⟩
  exact ringSlot_valid m j2 hj2

theorem sowResult_to_move (s : State) (i : Nat) (hi : i < PITS_PER_SIDE) :
    (sowResult s i).1.to_move = s.to_move := by
  rw [sowResult_eq s i hi]
  rw [foldl_deposit_to_move, sowStart_to_move]

theorem sowResult_store_opp (s : State) (i : Nat) (hi : i < PITS_PER_SIDE) :
    (sowResult s i).1.store s.to_move.opponent = s.store s.to_move.opponent := by
  rw [sowResult_eq s i hi]
  rw [foldl_deposit_store _ _ _ (opp_store_not_mem_ringPath s.to_move i _),
    sowStart_store]

theorem sowResult_wf (s : State) (i : Nat) (hi : i < PITS_PER_SIDE) (hwf : s.Wf) :
    (sowResult s i).1.Wf := by
  rw [sowResult_eq s i hi]
  exact foldl_deposit_wf _ _ (sowStart_wf s i hwf)

theorem sowResult_total (s : State) (i : Nat) (hi : i < PITS_PER_SIDE)
    (hpos : 0 < (s.pits s.to_move).getD i 0) (hwf : s.Wf) :
    (sowResult s i).1.total = s.total := by
  rw [sowResult_eq s i hi]
  rw [foldl_deposit_total _ _ (sowStart_wf s i hwf) (ringPath_all_valid _ _ _),
    ringPath_length]
  have := sowStart_total s i hpos
  omega

theorem sow_from_pit_total (s : State) (i : Nat) (hi : i < PITS_PER_SIDE)
    (hpos : 0 < (s.pits s.to_move).getD i 0) (hwf : s.Wf) :
    (s.sow_from_pit i).total = s.total := by
  unfold State.sow_from_pit
  rw [sweepStep_total, turnStep_total, captureStep_total]
  exact sowResult_total s i hi hpos hwf

theorem sow_from_pit_wf (s : State) (i : Nat) (hi : i < PITS_PER_SIDE) (hwf : s.Wf) :
    (s.sow_from_pit i).Wf := by
  unfold State.sow_from_pit
  exact sweepStep_wf _ (turnStep_wf _ _ _ (captureStep_wf _ _ _ (sowResult_wf s i hi hwf)))

theorem sow_from_pit_to_move (s : State) (i : Nat) (hi : i < PITS_PER_SIDE) :
    (s.sow_from_pit i).to_move =
      if isExtraTurn s.to_move (sowResult s i).2 then s.to_move
      else s.to_move.opponent := by
  unfold State.sow_from_pit
  rw [sweepStep_to_move, turnStep_to_move, captureStep_to_move,
    sowResult_to_move s i hi]

theorem reachable_wf_total (s : State) (h : Reachable s) :
    s.Wf ∧ s.total = 2 * PITS_PER_SIDE * STONES_PER_PIT := by
  induction h with
  | init => exact ⟨by decide, by decide⟩
  | step hr hc ih =>
    rcases (child_eq_some_iff _ _ _).mp hc with ⟨hnt, hi, hpos, rfl⟩
    exact ⟨sow_from_pit_wf _ _ hi ih.1,
           by rw [sow_from_pit_total _ _ hi hpos ih.1]; exact ih.2⟩

theorem reachable_of_playMoves : ∀ (ms : List Nat) (s t : State),
    Reachable s → playMoves s ms = some t → Reachable t := by
  intro ms
  induction ms with
  | nil =>
    intro s t hr hp
    cases hp
    exact hr
  | cons m rest ih =>
    intro s t hr hp
    unfold playMoves at hp
    cases hc : s.child_after_move m with
    | none => rw [hc] at hp; cases hp
    | some u =>
      rw [hc] at hp
      exact ih u t (Reachable.step hr hc) hp

/-! ### Further helpers for capture and terminality -/

theorem wf_pits_length (s : State) (hwf : s.Wf) (q : Player) :
    (s.pits q).length = PITS_PER_SIDE := by
  cases q
  · exact hwf.1
  · exact hwf.2

theorem not_terminal_of_rows (u : State) (q : Player)
    (h1 : ¬ ∀ x ∈ u.pits q, x = 0) (h2 : ¬ ∀ x ∈ u.pits q.opponent, x = 0) :
    ¬ u.is_terminal := by
  rw [is_terminal_iff_pits]
  cases q
  · rintro (h | h)
    · exact h1 h
    · exact h2 h
  · rintro (h | h)
    · exact h2 h
    · exact h1 h

theorem is_terminal_turnStep (m : Player) (last : Loc) (u : State) :
    (turnStep m last u).is_terminal ↔ u.is_terminal := by
  unfold turnStep
  split_ifs <;> exact Iff.rfl

theorem sweepStep_pits_getD_zero (u : State) (q : Player) (j : Nat)
    (h : (u.pits q).getD j 0 = 0) : ((sweepStep u).pits q).getD j 0 = 0 := by
  by_cases ht : u.is_terminal
  · rw [sweepStep_of_terminal u ht]
    cases q
    · exact getD_replicate_zero _ _
    · exact getD_replicate_zero _ _
  · rw [sweepStep_of_not_terminal u ht]
    exact h

theorem captureStep_fires (m : Player) (idx : Nat) (u : State)
    (hone : (u.pits m).getD idx 0 = 1)
    (hcap : 0 < (u.pits m.opponent).getD (PITS_PER_SIDE - 1 - idx) 0) :
    ((captureStep m (Loc.pit m idx) u).pits m).getD idx 0 = 0 ∧
    ((captureStep m (Loc.pit m idx) u).pits m.opponent).getD (PITS_PER_SIDE - 1 - idx) 0 = 0 ∧
    (captureStep m (Loc.pit m idx) u).store m =
      u.store m + (u.pits m.opponent).getD (PITS_PER_SIDE - 1 - idx) 0 + 1 := by
  have hidx : idx < (u.pits m).length :=
    lt_length_of_getD_pos _ _ (by rw [hone]; omega)
  have hoi : PITS_PER_SIDE - 1 - idx < (u.pits m.opponent).length :=
    lt_length_of_getD_pos _ _ hcap
  simp only [captureStep]
  rw [if_pos (And.intro trivial hone), if_pos hcap]
  refine ⟨?_, ?_, ?_⟩
  · rw [pits_setStore, pits_setPits_ne _ _ _ _ (Ne.symm (Player.opponent_ne m)),
      pits_setPits_self]
    exact getD_set_self _ _ _ hidx
  · rw [pits_setStore, pits_setPits_self,
      pits_setPits_ne _ _ _ _ (Player.opponent_ne m)]
    exact getD_set_self _ _ _ hoi
  · rw [store_setStore_self, store_setPits, store_setPits]

theorem captureStep_no_fire (m : Player) (idx : Nat) (u : State)
    (hone : (u.pits m).getD idx 0 = 1)
    (hzero : (u.pits m.opponent).getD (PITS_PER_SIDE - 1 - idx) 0 = 0) :
    captureStep m (Loc.pit m idx) u = u := by
  simp only [captureStep]
  rw [if_pos (And.intro trivial hone), if_neg (by omega)]

/-! ### Claim theorems -/

/-- C1 — Stone conservation: every position reachable from the initial
position by legal moves totals `2 * PITS_PER_SIDE * STONES_PER_PIT = 48`
stones over its twelve pits and two stores, and every application of
`child_after_move` leaves that total unchanged. -/
theorem stone_conservation (s : State) (hr : Reachable s) :
    s.total = 2 * PITS_PER_SIDE * STONES_PER_PIT ∧
    ∀ (i : Nat) (t : State), s.child_after_move i = some t → t.total = s.total := by
  have h := reachable_wf_total s hr
  refine ⟨h.2, ?_⟩
  intro i t hc
  rcases (child_eq_some_iff _ _ _).mp hc with ⟨_, hi, hpos, rfl⟩
  exact sow_from_pit_total s i hi hpos h.1

/-- Witness for C1 at the initial position. -/
theorem stone_conservation_witness :
    State.new.total = 2 * PITS_PER_SIDE * STONES_PER_PIT :=
  (stone_conservation State.new Reachable.init).1

/-- C2 — Legality gating: `child_after_move` returns `none` exactly when the
state is terminal, the index is out of range, or the chosen pit is empty on
the current side.  (The embedding is a pure function of the input state, so
the "never mutates its input" clause holds by construction, mirroring the
Rust code, which clones its fields and sows only in the copy.) -/
theorem legality_gating (s : State) (i : Nat) :
    s.child_after_move i = none ↔
      s.is_terminal ∨ PITS_PER_SIDE ≤ i ∨ (s.pits s.to_move).getD i 0 = 0 := by
  unfold State.child_after_move
  split_ifs with h1 h2
  · constructor
    · intro _
      rcases h1 with h | h
      · exact Or.inl h
      · exact Or.inr (Or.inl h)
    · intro _; rfl
  · constructor
    · intro _
      exact Or.inr (Or.inr h2)
    · intro _; rfl
  · push_neg at h1
    constructor
    · intro h; exact absurd h (by simp)
    · intro hcon
      rcases hcon with h | h | h
      · exact absurd h h1.1
      · omega
      · exact absurd h h2

/-- C4 — Extra-turn rule: for any legal move, the successor's player to move
equals the mover exactly when the last sown stone was deposited in the
mover's own store (the `last` slot computed by the sowing loop). -/
theorem extra_turn_rule (s t : State) (i : Nat) (h : s.child_after_move i = some t) :
    t.to_move = s.to_move ↔ (sowResult s i).2 = Loc.store s.to_move := by
  rcases (child_eq_some_iff _ _ _).mp h with ⟨_, hi, _, rfl⟩
  rw [sow_from_pit_to_move s i hi]
  by_cases he : isExtraTurn s.to_move (sowResult s i).2
  · rw [if_pos he]
    constructor
    · intro _
      exact (isExtraTurn_iff _ _).mp he
    · intro _; rfl
  · rw [if_neg he]
    constructor
    · intro hx
      exact absurd hx (Player.opponent_ne _)
    · intro hl
      exact absurd ((isExtraTurn_iff _ _).mpr hl) he

/-- Witness for C4: from the initial position, pit 2 lands the last stone in
the mover's store and keeps the turn. -/
theorem extra_turn_rule_witness :
    State.new.child_after_move 2 = some (State.new.sow_from_pit 2) ∧
    ((State.new.sow_from_pit 2).to_move = State.new.to_move ↔
      (sowResult State.new 2).2 = Loc.store State.new.to_move) :=
  ⟨by decide, extra_turn_rule State.new _ 2 (by decide)⟩

/-- C5 — Terminal sweep completeness: a terminal successor produced by
`child_after_move` has every pit on both sides equal to zero; equivalently,
every reachable terminal state has all pits zero. -/
theorem terminal_sweep_completeness :
    (∀ (s : State) (i : Nat) (t : State), s.child_after_move i = some t →
      t.is_terminal → (∀ x ∈ t.pitsA, x = 0) ∧ (∀ x ∈ t.pitsB, x = 0)) ∧
    (∀ s : State, Reachable s → s.is_terminal →
      (∀ x ∈ s.pitsA, x = 0) ∧ (∀ x ∈ s.pitsB, x = 0)) := by
  have main : ∀ (s : State) (i : Nat) (t : State), s.child_after_move i = some t →
      t.is_terminal → (∀ x ∈ t.pitsA, x = 0) ∧ (∀ x ∈ t.pitsB, x = 0) := by
    intro s i t hc ht
    rcases (child_eq_some_iff _ _ _).mp hc with ⟨_, _, _, rfl⟩
    unfold State.sow_from_pit at ht ⊢
    exact sweepStep_pits_zero _ ((is_terminal_sweepStep _).mp ht)
  refine ⟨main, ?_⟩
  intro s hr ht
  cases hr with
  | init => exact absurd ht (by decide)
  | step hr2 hc => exact main _ _ _ hc ht

/-- Witness for C5: emptying A's last pit triggers the sweep. -/
theorem terminal_sweep_completeness_witness :
    (State.mk [0, 0, 0, 0, 0, 1] [0, 0, 0, 0, 0, 1] 0 0 .A).child_after_move 5 =
      some ((State.mk [0, 0, 0, 0, 0, 1] [0, 0, 0, 0, 0, 1] 0 0 .A).sow_from_pit 5) ∧
    ((State.mk [0, 0, 0, 0, 0, 1] [0, 0, 0, 0, 0, 1] 0 0 .A).sow_from_pit 5).is_terminal ∧
    ((∀ x ∈ ((State.mk [0, 0, 0, 0, 0, 1] [0, 0, 0, 0, 0, 1] 0 0 .A).sow_from_pit 5).pitsA, x = 0) ∧
     (∀ x ∈ ((State.mk [0, 0, 0, 0, 0, 1] [0, 0, 0, 0, 0, 1] 0 0 .A).sow_from_pit 5).pitsB, x = 0)) :=
  ⟨by decide, by decide,
   terminal_sweep_completeness.1 (State.mk [0, 0, 0, 0, 0, 1] [0, 0, 0, 0, 0, 1] 0 0 .A) 5
     ((State.mk [0, 0, 0, 0, 0, 1] [0, 0, 0, 0, 0, 1] 0 0 .A).sow_from_pit 5)
     (by decide) (by decide)⟩

/-- C6 — Sowing ring with store skipping: in a legal move the sowing phase
deposits one stone per slot along the 13-slot spec ring starting just after
the chosen pit (`ringPath`, a spec-modelled description), the last stone
lands on the corresponding ring slot, exactly the picked-up count of slots
is visited, and the opponent's store is never visited and never changes
during sowing. -/
theorem sowing_ring (s t : State) (i : Nat) (h : s.child_after_move i = some t) :
    (sowResult s i).1 =
      List.foldl deposit (sowStart s i)
        (ringPath s.to_move i ((s.pits s.to_move).getD i 0)) ∧
    (sowResult s i).2 = ringSlot s.to_move ((i + (s.pits s.to_move).getD i 0) % 13) ∧
    (ringPath s.to_move i ((s.pits s.to_move).getD i 0)).length =
      (s.pits s.to_move).getD i 0 ∧
    Loc.store s.to_move.opponent ∉ ringPath s.to_move i ((s.pits s.to_move).getD i 0) ∧
    (sowResult s i).1.store s.to_move.opponent = s.store s.to_move.opponent := by
  rcases (child_eq_some_iff _ _ _).mp h with ⟨_, hi, _, _⟩
  have he := sowResult_eq s i hi
  exact ⟨by rw [he], by rw [he], ringPath_length _ _ _,
    opp_store_not_mem_ringPath _ _ _, sowResult_store_opp s i hi⟩

/-- Witness for C6 at the initial position, move 0. -/
theorem sowing_ring_witness :
    State.new.child_after_move 0 = some (State.new.sow_from_pit 0) ∧
    ((sowResult State.new 0).1 =
      List.foldl deposit (sowStart State.new 0)
        (ringPath State.new.to_move 0 ((State.new.pits State.new.to_move).getD 0 0)) ∧
    (sowResult State.new 0).2 =
      ringSlot State.new.to_move
        ((0 + (State.new.pits State.new.to_move).getD 0 0) % 13) ∧
    (ringPath State.new.to_move 0 ((State.new.pits State.new.to_move).getD 0 0)).length =
      (State.new.pits State.new.to_move).getD 0 0 ∧
    Loc.store State.new.to_move.opponent ∉
      ringPath State.new.to_move 0 ((State.new.pits State.new.to_move).getD 0 0) ∧
    (sowResult State.new 0).1.store State.new.to_move.opponent =
      State.new.store State.new.to_move.opponent) :=
  ⟨by decide, sowing_ring State.new (State.new.sow_from_pit 0) 0 (by decide)⟩

/-- C7 (amended) — Opponent-store frame: for a reachable state and a legal
move whose successor is non-terminal, the non-mover's store is unchanged.
(The original claim fails when the move ends the game: the end-of-game sweep
credits the opponent's own remaining pit stones to the opponent's store; see
the counterexample.) -/
theorem opponent_store_invariance (s t : State) (i : Nat) (_hr : Reachable s)
    (h : s.child_after_move i = some t) (hnt : ¬ t.is_terminal) :
    t.store s.to_move.opponent = s.store s.to_move.opponent := by
  rcases (child_eq_some_iff _ _ _).mp h with ⟨_, hi, _, rfl⟩
  unfold State.sow_from_pit at hnt ⊢
  have hu : ¬ (turnStep s.to_move (sowResult s i).2
      (captureStep s.to_move (sowResult s i).2 (sowResult s i).1)).is_terminal :=
    fun hx => hnt ((is_terminal_sweepStep _).mpr hx)
  rw [sweepStep_of_not_terminal _ hu, turnStep_store,
    captureStep_store_ne _ _ _ _ (Player.opponent_ne _),
    sowResult_store_opp s i hi]

/-- Witness for the amended C7 at the initial position, move 0. -/
theorem opponent_store_invariance_witness :
    State.new.child_after_move 0 = some (State.new.sow_from_pit 0) ∧
    ¬ (State.new.sow_from_pit 0).is_terminal ∧
    (State.new.sow_from_pit 0).store State.new.to_move.opponent =
      State.new.store State.new.to_move.opponent :=
  ⟨by decide, by decide,
   opponent_store_invariance State.new _ 0 Reachable.init (by decide) (by decide)⟩

/-- Counterexample to C7 as stated: `c7State` is reachable (via `c7Moves`),
and B's legal move 5 empties B's side, so the terminal sweep raises A's
(the non-mover's) store from 7 to 41. -/
theorem opponent_store_invariance_cex :
    Reachable c7State ∧
    c7State.child_after_move 5 = some (c7State.sow_from_pit 5) ∧
    c7State.store (c7State.to_move.opponent) <
      (c7State.sow_from_pit 5).store (c7State.to_move.opponent) :=
  ⟨reachable_of_playMoves c7Moves State.new c7State Reachable.init (by decide),
   by decide, by decide⟩

/-- C10 — For every length-6 board: `legal_moves` is empty exactly on
terminal states, every listed move yields a successor (so the `unwrap` in
`legal_actions` never fails), and `legal_actions` has the same length as
`legal_moves` and is empty exactly on terminal states. -/
theorem legal_moves_iff_terminal (s : State) (hwf : s.Wf) :
    (s.legal_moves = [] ↔ s.is_terminal) ∧
    (∀ m ∈ s.legal_moves, (s.child_after_move m).isSome) ∧
    s.legal_actions.length = s.legal_moves.length ∧
    (s.legal_actions = [] ↔ s.is_terminal) := by
  have hsome : ∀ m ∈ s.legal_moves, (s.child_after_move m).isSome := by
    intro m hm
    unfold State.legal_moves at hm
    by_cases ht : s.is_terminal
    · rw [if_pos ht] at hm
      cases hm
    · rw [if_neg ht] at hm
      have h1 := (List.mem_filter.mp hm).1
      have h2 := (List.mem_filter.mp hm).2
      have hlt : m < PITS_PER_SIDE := List.mem_range.mp h1
      have hpos : 0 < (s.pits s.to_move).getD m 0 := by simpa using h2
      rw [(child_eq_some_iff s (s.sow_from_pit m) m).mpr ⟨ht, hlt, hpos, rfl⟩]
      rfl
  have hiff : s.legal_moves = [] ↔ s.is_terminal := by
    unfold State.legal_moves
    by_cases ht : s.is_terminal
    · rw [if_pos ht]
      simp [ht]
    · rw [if_neg ht]
      constructor
      · intro he
        exfalso
        have hrow : ¬ (∀ x ∈ s.pits s.to_move, x = 0) := by
          cases hmv : s.to_move
          · exact fun hz => ht (Or.inl hz)
          · exact fun hz => ht (Or.inr hz)
        rw [all_zero_iff_getD] at hrow
        push_neg at hrow
        obtain ⟨j, hj⟩ := hrow
        have hjpos : 0 < (s.pits s.to_move).getD j 0 := by omega
        have hjlen : j < (s.pits s.to_move).length := lt_length_of_getD_pos _ j hjpos
        rw [wf_pits_length s hwf] at hjlen
        have hmem : j ∈ (List.range PITS_PER_SIDE).filter
            (fun k => decide (0 < (s.pits s.to_move).getD k 0)) :=
          List.mem_filter.mpr ⟨List.mem_range.mpr hjlen, by simpa using hjpos⟩
        rw [he] at hmem
        cases hmem
      · intro ht2
        exact absurd ht2 ht
  have hlen : s.legal_actions.length = s.legal_moves.length :=
    filterMap_length_of_isSome _ _ hsome
  refine ⟨hiff, hsome, hlen, ?_⟩
  constructor
  · intro he
    have h0 : s.legal_moves.length = 0 := by
      rw [← hlen, he]
      rfl
    exact hiff.mp (List.length_eq_zero.mp h0)
  · intro ht2
    unfold State.legal_actions
    rw [hiff.mpr ht2]
    rfl

/-- Witness for C10 at the initial position. -/
theorem legal_moves_iff_terminal_witness :
    State.new.Wf ∧
    ((State.new.legal_moves = [] ↔ State.new.is_terminal) ∧
     (∀ m ∈ State.new.legal_moves, (State.new.child_after_move m).isSome) ∧
     State.new.legal_actions.length = State.new.legal_moves.length ∧
     (State.new.legal_actions = [] ↔ State.new.is_terminal)) :=
  ⟨by decide, legal_moves_iff_terminal State.new (by decide)⟩

/-- C3 (amended) — Capture rule: in a legal move whose last stone lands in
the mover's own pit `idx` leaving it with exactly one stone: if the
directly-opposite opponent pit (`PITS_PER_SIDE - 1 - idx`, counts taken
after sowing) is non-empty, both pits are zero in the successor and — when
the successor is non-terminal, i.e. no end-of-game sweep follows — the
mover's store ends at its post-sowing value plus (opposite count + 1); if
the opposite pit is empty, no capture occurs: the landing pit holds exactly
one stone in the successor and the mover's store keeps its post-sowing
value.  (The original claim's unconditional "gains exactly opposite + 1"
fails when the capture empties a side and the sweep adds further stones;
see the counterexample.) -/
theorem capture_rule (s t : State) (i idx : Nat)
    (h : s.child_after_move i = some t)
    (hlast : (sowResult s i).2 = Loc.pit s.to_move idx)
    (hone : ((sowResult s i).1.pits s.to_move).getD idx 0 = 1) :
    (0 < ((sowResult s i).1.pits s.to_move.opponent).getD (PITS_PER_SIDE - 1 - idx) 0 →
      (t.pits s.to_move).getD idx 0 = 0 ∧
      (t.pits s.to_move.opponent).getD (PITS_PER_SIDE - 1 - idx) 0 = 0 ∧
      (¬ t.is_terminal →
        t.store s.to_move = (sowResult s i).1.store s.to_move +
          ((sowResult s i).1.pits s.to_move.opponent).getD (PITS_PER_SIDE - 1 - idx) 0 + 1)) ∧
    (((sowResult s i).1.pits s.to_move.opponent).getD (PITS_PER_SIDE - 1 - idx) 0 = 0 →
      (t.pits s.to_move).getD idx 0 = 1 ∧
      t.store s.to_move = (sowResult s i).1.store s.to_move) := by
  rcases (child_eq_some_iff _ _ _).mp h with ⟨hnt, hi, hpos, rfl⟩
  constructor
  · intro hcap
    have hc := captureStep_fires s.to_move idx (sowResult s i).1 hone hcap
    unfold State.sow_from_pit
    rw [hlast]
    refine ⟨?_, ?_, ?_⟩
    · apply sweepStep_pits_getD_zero
      rw [turnStep_pits]
      exact hc.1
    · apply sweepStep_pits_getD_zero
      rw [turnStep_pits]
      exact hc.2.1
    · intro hterm
      have hu : ¬ (turnStep s.to_move (Loc.pit s.to_move idx)
          (captureStep s.to_move (Loc.pit s.to_move idx) (sowResult s i).1)).is_terminal :=
        fun hx => hterm ((is_terminal_sweepStep _).mpr hx)
      rw [sweepStep_of_not_terminal _ hu, turnStep_store]
      exact hc.2.2
  · intro hzero
    have hceq := captureStep_no_fire s.to_move idx (sowResult s i).1 hone hzero
    unfold State.sow_from_pit
    rw [hlast, hceq]
    have hmono : ∀ j, (s.pits s.to_move.opponent).getD j 0 ≤
        ((sowResult s i).1.pits s.to_move.opponent).getD j 0 := by
      intro j
      rw [sowResult_eq s i hi]
      calc (s.pits s.to_move.opponent).getD j 0
          = ((sowStart s i).pits s.to_move.opponent).getD j 0 := by
            rw [sowStart_pits_ne s i _ (Player.opponent_ne s.to_move)]
        _ ≤ _ := foldl_deposit_getD_le _ _ _ j
    have hOppRow : ¬ ∀ x ∈ s.pits s.to_move.opponent, x = 0 := by
      cases hmv : s.to_move
      · exact fun hz => hnt (Or.inr hz)
      · exact fun hz => hnt (Or.inl hz)
    rw [all_zero_iff_getD] at hOppRow
    push_neg at hOppRow
    obtain ⟨j, hj⟩ := hOppRow
    have hu : ¬ (turnStep s.to_move (Loc.pit s.to_move idx)
        (sowResult s i).1).is_terminal := by
      apply not_terminal_of_rows _ s.to_move
      · intro hall
        rw [turnStep_pits] at hall
        have := (all_zero_iff_getD _).mp hall idx
        rw [hone] at this
        cases this
      · intro hall
        rw [turnStep_pits] at hall
        have h0 := (all_zero_iff_getD _).mp hall j
        have := hmono j
        omega
    rw [sweepStep_of_not_terminal _ hu]
    refine ⟨?_, ?_⟩
    · rw [turnStep_pits]
      exact hone
    · rw [turnStep_store]

/-- Witness for the amended C3: a capture with both sides left non-empty. -/
theorem capture_rule_witness :
    c3WState.child_after_move 0 = some (c3WState.sow_from_pit 0) ∧
    (sowResult c3WState 0).2 = Loc.pit c3WState.to_move 1 ∧
    ((sowResult c3WState 0).1.pits c3WState.to_move).getD 1 0 = 1 ∧
    ((0 < ((sowResult c3WState 0).1.pits c3WState.to_move.opponent).getD
        (PITS_PER_SIDE - 1 - 1) 0 →
      ((c3WState.sow_from_pit 0).pits c3WState.to_move).getD 1 0 = 0 ∧
      ((c3WState.sow_from_pit 0).pits c3WState.to_move.opponent).getD
        (PITS_PER_SIDE - 1 - 1) 0 = 0 ∧
      (¬ (c3WState.sow_from_pit 0).is_terminal →
        (c3WState.sow_from_pit 0).store c3WState.to_move =
          (sowResult c3WState 0).1.store c3WState.to_move +
          ((sowResult c3WState 0).1.pits c3WState.to_move.opponent).getD
            (PITS_PER_SIDE - 1 - 1) 0 + 1)) ∧
    (((sowResult c3WState 0).1.pits c3WState.to_move.opponent).getD
        (PITS_PER_SIDE - 1 - 1) 0 = 0 →
      ((c3WState.sow_from_pit 0).pits c3WState.to_move).getD 1 0 = 1 ∧
      (c3WState.sow_from_pit 0).store c3WState.to_move =
        (sowResult c3WState 0).1.store c3WState.to_move)) :=
  ⟨by decide, by decide, by decide,
   capture_rule c3WState (c3WState.sow_from_pit 0) 0 1
     (by decide) (by decide) (by decide)⟩

/-- Counterexample to C3 as stated: at `c3State` move 0 the capture
conditions hold (last stone in mover's pit 1 with one stone, opposite pit
holds 3), yet the successor's mover store is 9, not 0 + 3 + 1 = 4, because
the capture empties B's side and the sweep adds A's remaining 5 stones. -/
theorem capture_rule_cex :
    c3State.child_after_move 0 = some (c3State.sow_from_pit 0) ∧
    (sowResult c3State 0).2 = Loc.pit c3State.to_move 1 ∧
    ((sowResult c3State 0).1.pits c3State.to_move).getD 1 0 = 1 ∧
    0 < ((sowResult c3State 0).1.pits c3State.to_move.opponent).getD
      (PITS_PER_SIDE - 1 - 1) 0 ∧
    ¬ ((c3State.sow_from_pit 0).store c3State.to_move =
        c3State.store c3State.to_move +
        ((sowResult c3State 0).1.pits c3State.to_move.opponent).getD
          (PITS_PER_SIDE - 1 - 1) 0 + 1) :=
  ⟨by decide, by decide, by decide, by decide, by decide⟩

/-! ### MCTS lemmas and claims -/

theorem bestScan_some {K : Type} [LinearOrderedField K] :
    ∀ (rest : List K) (i best : Nat) (b : K),
      (bestScan rest i best (some b) = best ∧ ∀ x ∈ rest, x ≤ b) ∨
      (∃ j, ∃ hj : j < rest.length, bestScan rest i best (some b) = i + j ∧
        b < rest.get ⟨j, hj⟩ ∧
        (∀ j2 (hj2 : j2 < rest.length), rest.get ⟨j2, hj2⟩ ≤ rest.get ⟨j, hj⟩) ∧
        (∀ j2 (hj2 : j2 < rest.length), j2 < j →
          rest.get ⟨j2, hj2⟩ < rest.get ⟨j, hj⟩)) := by
  intro rest
  induction rest with
  | nil =>
    intro i best b
    left
    exact ⟨rfl, by simp⟩
  | cons sc rest ih =>
    intro i best b
    rw [show bestScan (sc :: rest) i best (some b) =
        if b < sc then bestScan rest (i + 1) i (some sc)
        else bestScan rest (i + 1) best (some b) from rfl]
    by_cases hbs : b < sc
    · rw [if_pos hbs]
      rcases ih (i + 1) i sc with ⟨heq, hall⟩ | ⟨j, hj, heq, hlt, hle, hstrict⟩
      · right
        refine ⟨0, by simp, by omega, hbs, ?_, ?_⟩
        · intro j2 hj2
          cases j2 with
          | zero => exact le_refl sc
          | succ j2a => exact hall _ (List.get_mem rest j2a _)
        · intro j2 hj2 hcon
          omega
      · right
        refine ⟨j + 1, by simp only [List.length_cons]; omega, by omega,
          lt_trans hbs hlt, ?_, ?_⟩
        · intro j2 hj2
          cases j2 with
          | zero => exact le_of_lt hlt
          | succ j2a => exact hle j2a (by simp only [List.length_cons] at hj2; omega)
        · intro j2 hj2 hlt2
          cases j2 with
          | zero => exact hlt
          | succ j2a =>
            exact hstrict j2a (by simp only [List.length_cons] at hj2; omega) (by omega)
    · rw [if_neg hbs]
      push_neg at hbs
      rcases ih (i + 1) best b with ⟨heq, hall⟩ | ⟨j, hj, heq, hlt, hle, hstrict⟩
      · left
        refine ⟨heq, ?_⟩
        intro x hx
        rcases List.mem_cons.mp hx with rfl | hmem
        · exact hbs
        · exact hall x hmem
      · right
        refine ⟨j + 1, by simp only [List.length_cons]; omega, by omega,
          hlt, ?_, ?_⟩
        · intro j2 hj2
          cases j2 with
          | zero => exact le_of_lt (lt_of_le_of_lt hbs hlt)
          | succ j2a => exact hle j2a (by simp only [List.length_cons] at hj2; omega)
        · intro j2 hj2 hlt2
          cases j2 with
          | zero => exact lt_of_le_of_lt hbs hlt
          | succ j2a =>
            exact hstrict j2a (by simp only [List.length_cons] at hj2; omega) (by omega)

theorem bestScan_spec {K : Type} [LinearOrderedField K] (scores : List K)
    (hne : scores ≠ []) :
    bestScan scores 0 0 none < scores.length ∧
    ∀ j (hj : j < scores.length) (hk : bestScan scores 0 0 none < scores.length),
      scores.get ⟨j, hj⟩ ≤ scores.get ⟨bestScan scores 0 0 none, hk⟩ ∧
      (j < bestScan scores 0 0 none →
        scores.get ⟨j, hj⟩ < scores.get ⟨bestScan scores 0 0 none, hk⟩) := by
  cases scores with
  | nil => exact absurd rfl hne
  | cons sc rest =>
    rw [show bestScan (sc :: rest) 0 0 none = bestScan rest 1 0 (some sc) from rfl]
    rcases bestScan_some rest 1 0 sc with ⟨heq, hall⟩ | ⟨j, hj, heq, hlt, hle, hstrict⟩
    · rw [heq]
      refine ⟨by simp, ?_⟩
      intro j2 hj2 hk
      cases j2 with
      | zero => exact ⟨le_refl _, by omega⟩
      | succ j2a => exact ⟨hall _ (List.get_mem rest j2a _), by omega⟩
    · rw [Nat.add_comm 1 j] at heq
      rw [heq]
      refine ⟨by simp only [List.length_cons]; omega, ?_⟩
      intro j2 hj2 hk
      cases j2 with
      | zero => exact ⟨le_of_lt hlt, fun _ => hlt⟩
      | succ j2a =>
        refine ⟨hle j2a (by simp only [List.length_cons] at hj2; omega), ?_⟩
        intro hlt2
        exact hstrict j2a (by simp only [List.length_cons] at hj2; omega) (by omega)

theorem get_map_aux {α β : Type} (f : α → β) : ∀ (l : List α) (j : Nat)
    (hj : j < (l.map f).length) (hj2 : j < l.length),
    (l.map f).get ⟨j, hj⟩ = f (l.get ⟨j, hj2⟩) := by
  intro l
  induction l with
  | nil =>
    intro j hj hj2
    simp at hj2
  | cons x xs ih =>
    intro j hj hj2
    cases j with
    | zero => rfl
    | succ n => exact ih n (by simpa using hj) (by simpa using hj2)

/-- C8 — Terminal leaf evaluation sign convention: on a terminal leaf the
evaluation is `-1` when the outcome is a win for the leaf's side to move,
`+1` when it is a win for the other side, and `0` on a draw; on a
non-terminal leaf it is the evaluator's value estimate for that exact state.
(`f32` values are idealized as elements of a linear ordered field.) -/
theorem leaf_evaluation_sign {K : Type} [LinearOrderedField K]
    (eval : State → List (Nat × K) × K) (n : Node K) :
    (n.state.is_terminal →
      (n.state.outcome = Outcome.Win n.toMove → evaluate_leaf eval n = -1) ∧
      (∀ q : Player, q ≠ n.toMove → n.state.outcome = Outcome.Win q →
        evaluate_leaf eval n = 1) ∧
      (n.state.outcome = Outcome.Draw → evaluate_leaf eval n = 0)) ∧
    (¬ n.state.is_terminal → evaluate_leaf eval n = (eval n.state).2) := by
  constructor
  · intro ht
    have ht2 : n.is_terminal := ht
    refine ⟨?_, ?_, ?_⟩
    · intro hw
      unfold evaluate_leaf
      rw [if_pos ht2, hw]
      show (if n.toMove = n.toMove then (-1 : K) else 1) = -1
      rw [if_pos rfl]
    · intro q hq hw
      unfold evaluate_leaf
      rw [if_pos ht2, hw]
      show (if q = n.toMove then (-1 : K) else 1) = 1
      rw [if_neg hq]
    · intro hd
      unfold evaluate_leaf
      rw [if_pos ht2, hd]
  · intro ht
    have ht2 : ¬ n.is_terminal := ht
    unfold evaluate_leaf
    rw [if_neg ht2]

/-- Witness for C8: a terminal leaf won by its side to move evaluates to -1
(over `ℚ`, with a trivial evaluator). -/
theorem leaf_evaluation_sign_witness :
    c8Node.state.is_terminal ∧
    c8Node.state.outcome = Outcome.Win c8Node.toMove ∧
    evaluate_leaf c8Eval c8Node = -1 :=
  ⟨by decide, by decide,
   ((leaf_evaluation_sign c8Eval c8Node).1 (by decide)).1 (by decide)⟩

/-- C9 — PUCT selection: `ucb` computes exactly the spec's score
`Q + c_puct * P * sqrt(N_parent) / (1 + N_child)` (with `Q` negated when the
child's side to move differs from the parent's, `N_parent` floored at 1),
and `best_child` returns the index of the materialized child with the
strictly highest score, ties keeping the lowest index.  (`f32` is idealized
as a linear ordered field and `f32::sqrt` as the abstract `sqrtK`.) -/
theorem puct_selection {K : Type} [LinearOrderedField K] (sqrtK : K → K)
    (p : Node K) (c : K) :
    (∀ ch : Node K, Node.ucb sqrtK p ch c = puctScoreSpec sqrtK p ch c) ∧
    (p.children ≠ [] →
      Node.best_child sqrtK p c < p.children.length ∧
      ∀ j (hj : j < p.children.length)
        (hk : Node.best_child sqrtK p c < p.children.length),
        Node.ucb sqrtK p (p.children.get ⟨j, hj⟩) c ≤
          Node.ucb sqrtK p (p.children.get ⟨Node.best_child sqrtK p c, hk⟩) c ∧
        (j < Node.best_child sqrtK p c →
          Node.ucb sqrtK p (p.children.get ⟨j, hj⟩) c <
            Node.ucb sqrtK p (p.children.get ⟨Node.best_child sqrtK p c, hk⟩) c)) := by
  constructor
  · intro ch
    unfold Node.ucb puctScoreSpec
    by_cases he : p.toMove = ch.toMove
    · rw [if_pos he, if_pos he.symm]
      ring
    · rw [if_neg he, if_neg (fun hx => he hx.symm)]
      ring
  · intro hne
    have hmapne : p.children.map (fun ch => Node.ucb sqrtK p ch c) ≠ [] := by
      simpa using hne
    have hs := bestScan_spec (p.children.map (fun ch => Node.ucb sqrtK p ch c)) hmapne
    have hlen : (p.children.map (fun ch => Node.ucb sqrtK p ch c)).length
        = p.children.length := List.length_map _ _
    have hbc : Node.best_child sqrtK p c =
        bestScan (p.children.map (fun ch => Node.ucb sqrtK p ch c)) 0 0 none := rfl
    have hklen : Node.best_child sqrtK p c < p.children.length := by
      rw [hbc, ← hlen]
      exact hs.1
    refine ⟨hklen, ?_⟩
    intro j hj hk
    have hj2 : j < (p.children.map (fun ch => Node.ucb sqrtK p ch c)).length := by
      rw [hlen]
      exact hj
    have hk2 : bestScan (p.children.map (fun ch => Node.ucb sqrtK p ch c)) 0 0 none <
        (p.children.map (fun ch => Node.ucb sqrtK p ch c)).length := by
      rw [hlen, ← hbc]
      exact hk
    have h2 := hs.2 j hj2 hk2
    rw [get_map_aux _ _ j hj2 hj] at h2
    rw [get_map_aux _ _ _ hk2 (by rw [← hbc]; exact hk)] at h2
    exact h2

/-- Witness for C9 over `ℚ`: a parent with two visited children, where
child 0 (mean value 1) beats child 1 (mean value 0) at `c_puct = 0`. -/
theorem puct_selection_witness :
    c9Parent.children ≠ [] ∧
    (Node.best_child id c9Parent 0 < c9Parent.children.length ∧
      ∀ j (hj : j < c9Parent.children.length)
        (hk : Node.best_child id c9Parent 0 < c9Parent.children.length),
        Node.ucb id c9Parent (c9Parent.children.get ⟨j, hj⟩) 0 ≤
          Node.ucb id c9Parent
            (c9Parent.children.get ⟨Node.best_child id c9Parent 0, hk⟩) 0 ∧
        (j < Node.best_child id c9Parent 0 →
          Node.ucb id c9Parent (c9Parent.children.get ⟨j, hj⟩) 0 <
            Node.ucb id c9Parent
              (c9Parent.children.get ⟨Node.best_child id c9Parent 0, hk⟩) 0)) :=
  ⟨by simp [c9Parent, Node.children],
   (puct_selection (id : ℚ → ℚ) c9Parent 0).2 (by simp [c9Parent, Node.children])⟩
